import Mathlib

/-!
Verification of the gwiki documentation-generation pipeline.

The definitions below are a shallow embedding of the TypeScript route
handlers in `src/app/api/analyze-repo/route.ts` and
`src/app/api/generate-wiki/route.ts`.  Strings are modelled by `String`
(manipulated through their underlying `List Char` so that everything is
executable and kernel-reducible), the outline tree by a mutual inductive
`ONode`/`OForest`, the LLM by an oracle `Nat → LLMResult` giving the
result of the k-th completion call of a request, and JSON values by a
mutual inductive `J`.
-/

namespace GWiki

/-- JavaScript `String.prototype.toLowerCase` on one character
(ASCII, which is all the source ever compares). -/
def lowerChar (c : Char) : Char := c.toLower

/-- Lowercase a whole string, as `s.toLowerCase()`. -/
def lowerStr (s : String) : String := ⟨s.data.map lowerChar⟩

/-- Membership test for the character class of JavaScript `\s`
(the whitespace characters that occur in practice). -/
def jsWhitespace (c : Char) : Bool := c.isWhitespace

/-- Core of `slugify`: lowercase every character and replace each
maximal run of whitespace by a single `'-'`; the Boolean records
whether the previous character was whitespace (i.e. we are inside a
run that has already emitted its dash). -/
def slugAux : Bool → List Char → List Char
  | _, [] => []
  | inRun, c :: cs =>
    if jsWhitespace c then
      if inRun then slugAux true cs else '-' :: slugAux true cs
    else
      lowerChar c :: slugAux false cs

/-- `title.toLowerCase().replace(/\s+/g, '-')`, the path-slug used all
over `analyze-repo/route.ts`. -/
def slugify (s : String) : String := ⟨slugAux false s.data⟩

/-- Outcome of one Anthropic completion call as seen by the caller:
a text block, a non-text first content block, or a thrown error
carrying an HTTP status (429 = rate limit). -/
inductive LLMResult : Type where
  | ok (text : String)
  | nonText
  | err (status : Nat)
deriving DecidableEq

/-- The oracle handed to the pipeline model: the result of the k-th
LLM call made while serving one request. -/
abbrev Oracle := Nat → LLMResult

/-- The fallback markdown of `generateEnhancedSectionContent`:
`# {subsection}\n\nContent for {subsection} in {section} section.` -/
def placeholderContent (sec subsec : String) : String :=
  "# " ++ subsec ++ "\n\nContent for " ++ subsec ++ " in " ++ sec ++ " section."

/-- `generateEnhancedSectionContent` (analyze-repo/route.ts, lines
726-839).  Its whole body is wrapped in `try`/`catch`: a text response
is returned as-is, a non-text response falls through to the placeholder
return, and every thrown error is caught and also produces the
placeholder.  The function therefore never throws and performs exactly
one LLM call, whose outcome is the `LLMResult` argument. -/
def generateEnhancedSectionContent (sec subsec : String) (r : LLMResult) : String :=
  match r with
  | .ok t => t
  | .nonText => placeholderContent sec subsec
  | .err _ => placeholderContent sec subsec

mutual
/-- A node of the ADocS outline: a title and a (possibly empty) list of
children, as consumed by `processAllSections` and `buildHierarchy`. -/
inductive ONode : Type where
  | node (title : String) (children : OForest)
deriving DecidableEq
/-- A list of outline nodes (custom list so that all recursions are
structural and kernel-reducible). -/
inductive OForest : Type where
  | nil
  | cons (head : ONode) (tail : OForest)
deriving DecidableEq
end

/-- Title of an outline node. -/
def ONode.title : ONode → String
  | .node t _ => t

/-- Children of an outline node. -/
def ONode.children : ONode → OForest
  | .node _ cs => cs

mutual
/-- Number of nodes of a tree, the root included. -/
def sizeO : ONode → Nat
  | .node _ cs => 1 + sizeF cs
/-- Total number of nodes of a forest. -/
def sizeF : OForest → Nat
  | .nil => 0
  | .cons c cs => sizeO c + sizeF cs
end

/-- A `sections`/`subsections` entry of the flat (fallback) outline
format; `subsections` is `none` when the field is absent or not an
array. -/
structure FlatSection : Type where
  title : String
  subsections : Option (List String)
deriving DecidableEq

/-- The two outline shapes accepted downstream (spec §4.2): the
ADocS nested form — a non-empty array whose first element is a root
object with `children` — and the flat `{ sections: [...] }` form. -/
inductive DocStructure : Type where
  | nested (root : ONode)
  | flat (sections : List FlatSection)
deriving DecidableEq

/-- A generated `Page` object.  `sec` models the `section` field
(`section` is a reserved word in Lean); `fullPath` is `none` for pages
produced by the flat branch, which does not set that field. -/
structure Page : Type where
  title : String
  content : String
  path : String
  ty : String
  sec : String
  subsection : String
  fullPath : Option String
deriving DecidableEq

/-- The `itemPath` computation of `processAllSections`/`buildHierarchy`:
`parentPath ? parentPath + '/' + slug : slug` (empty string is falsy). -/
def itemPathOf (parentPath title : String) : String :=
  if parentPath = "" then slugify title else parentPath ++ "/" ++ slugify title

/-- The `sectionTitle` (breadcrumb) computation:
`parentTitle ? parentTitle + ' > ' + title : title`. -/
def crumbOf (parentTitle title : String) : String :=
  if parentTitle = "" then title else parentTitle ++ " > " ++ title

/-- The section label passed to the enhancer and stored on the page:
`parentTitle || 'Documentation'`. -/
def sectionKeyOf (parentTitle : String) : String :=
  if parentTitle = "" then "Documentation" else parentTitle

mutual
/-- One iteration of the `for` loop body of `processAllSections`
(analyze-repo/route.ts, lines 512-566) on a single item: build the
item's path and breadcrumb, make exactly one generation call (the
`k`-th), push the resulting page, then recurse into the children.
Returns the pages pushed for this subtree together with the updated
call counter. -/
def processOneSection (oracle : Oracle) : ONode → String → String → Nat → List Page × Nat
  | .node t cs, parentPath, parentTitle, k =>
    let itemPath := itemPathOf parentPath t
    let sectionTitle := crumbOf parentTitle t
    let secArg := sectionKeyOf parentTitle
    let content := generateEnhancedSectionContent secArg t (oracle k)
    let pg : Page :=
      { title := t, content := content, path := itemPath, ty := "docs"
        sec := secArg, subsection := t, fullPath := some sectionTitle }
    let r := processAllSections oracle cs itemPath sectionTitle (k + 1)
    (pg :: r.1, r.2)
/-- `processAllSections` over a list of sibling items: process the head
node (and, inside it, its children), then the remaining siblings. -/
def processAllSections (oracle : Oracle) : OForest → String → String → Nat → List Page × Nat
  | .nil, _, _, k => ([], k)
  | .cons c rest, parentPath, parentTitle, k =>
    let r1 := processOneSection oracle c parentPath parentTitle k
    let r2 := processAllSections oracle rest parentPath parentTitle r1.2
    (r1.1 ++ r2.1, r2.2)
end

/-- The flat-format inner loop of `fetchAndEnhanceDocumentation`
(lines 574-606): one page per subsection string, path
`slug(section)/slug(item).md`, no `fullPath` field. -/
def flatSubsProcess (oracle : Oracle) (secTitle : String) :
    List String → Nat → List Page × Nat
  | [], k => ([], k)
  | item :: rest, k =>
    let content := generateEnhancedSectionContent secTitle item (oracle k)
    let pg : Page :=
      { title := item, content := content
        path := slugify secTitle ++ "/" ++ slugify item ++ ".md", ty := "docs"
        sec := secTitle, subsection := item, fullPath := none }
    let r := flatSubsProcess oracle secTitle rest (k + 1)
    (pg :: r.1, r.2)

/-- The flat-format outer loop: sections whose `subsections` is not an
array are skipped entirely. -/
def flatProcess (oracle : Oracle) : List FlatSection → Nat → List Page × Nat
  | [], k => ([], k)
  | s :: rest, k =>
    match s.subsections with
    | none => flatProcess oracle rest k
    | some subs =>
      let r1 := flatSubsProcess oracle s.title subs k
      let r2 := flatProcess oracle rest r1.2
      (r1.1 ++ r2.1, r2.2)

/-- `fetchAndEnhanceDocumentation` (lines 434-617), restricted to its
page-producing core: in the nested shape it processes the root item's
children; in the flat shape it walks `sections`/`subsections`.  Since
`generateEnhancedSectionContent` never throws, the surrounding
`try`/`catch` blocks never fire and a page is produced for every node. -/
def fetchAndEnhanceDocumentation (oracle : Oracle) (ds : DocStructure) : List Page :=
  match ds with
  | .nested root => (processAllSections oracle root.children "" "" 0).1
  | .flat secs => (flatProcess oracle secs 0).1

/-- The fixed fallback outline of `generateDocumentationStructure`
(analyze-repo/route.ts, lines 404-428). -/
def defaultSections : List FlatSection :=
  [ ⟨"Getting Started", some ["Installation", "Quick Start", "Configuration"]⟩
  , ⟨"Architecture", some ["System Overview", "Components", "Data Flow"]⟩
  , ⟨"Development", some ["Setup", "Testing", "Deployment"]⟩
  , ⟨"API Reference", some ["Endpoints", "Authentication", "Examples"]⟩
  , ⟨"Contributing", some ["Guidelines", "Code Style", "Pull Requests"]⟩ ]

/-- `generateDocumentationStructure` (lines 338-432): the whole body is
one `try`/`catch`; the `try` branch spawns the external ADocS process
and returns its parsed `documentation_structure` (modelled by the `ok`
payload), and any failure whatsoever — spawn failure, non-zero exit,
`JSON.parse` error — lands in the `catch`, which returns the fixed
default outline by a straight-line object literal that cannot fail. -/
def generateDocumentationStructure (callResult : Except String DocStructure) : DocStructure :=
  match callResult with
  | .ok ds => ds
  | .error _ => .flat defaultSections

mutual
/-- A navigation item as built by `buildNavigationStructure`.  Optional
fields model presence of the JavaScript object key: `hasContent = none`
means the object has no `hasContent` key at all (the flat-format
section items), `content = some none` models `content: null`,
`childrenKey` records whether a `children` key is present. -/
inductive NavItem : Type where
  | mk (title : String) (path : String) (ty : Option String)
       (hasContent : Option Bool) (content : Option (Option String))
       (childrenKey : Bool) (children : NavForest)
deriving DecidableEq
/-- A list of navigation items. -/
inductive NavForest : Type where
  | nil
  | cons (head : NavItem) (tail : NavForest)
deriving DecidableEq
end

/-- Title of a navigation item. -/
def NavItem.title : NavItem → String
  | .mk t _ _ _ _ _ _ => t

/-- Path of a navigation item. -/
def NavItem.path : NavItem → String
  | .mk _ p _ _ _ _ _ => p

/-- The `hasContent` field (``none`` = key absent). -/
def NavItem.hasContent : NavItem → Option Bool
  | .mk _ _ _ hc _ _ _ => hc

/-- The `content` field (``none`` = key absent, ``some none`` = null). -/
def NavItem.content : NavItem → Option (Option String)
  | .mk _ _ _ _ ct _ _ => ct

/-- The children of a navigation item (empty when no `children` key). -/
def NavItem.children : NavItem → NavForest
  | .mk _ _ _ _ _ _ ch => ch

/-- Whether a `children` key is present. -/
def NavItem.childrenKey : NavItem → Bool
  | .mk _ _ _ _ _ ck _ => ck

/-- The page-matching predicate of `buildHierarchy` (lines 856-859):
`page.fullPath === sectionTitle || (page.section === (parentTitle ||
'Documentation') && page.subsection === item.title)`. -/
def pageMatches (crumb secKey title : String) (pg : Page) : Bool :=
  pg.fullPath == some crumb || (pg.sec == secKey && pg.subsection == title)

/-- `correspondingPage?.content || null`: a found page contributes its
content unless that content is the empty string (falsy in JavaScript),
in which case — like a missing page — the field is `null`. -/
def contentField (corr : Option Page) : Option String :=
  match corr with
  | some pg => if pg.content = "" then none else some pg.content
  | none => none

mutual
/-- One iteration of `buildHierarchy` (analyze-repo/route.ts, lines
849-877) on a single outline item: look up the first matching page,
set `hasContent`/`content`, and attach a `children` key only when the
item has a non-empty children array. -/
def buildHierarchyItem (pages : List Page) : ONode → String → String → NavItem
  | .node t cs, parentPath, parentTitle =>
    let itemPath := itemPathOf parentPath t
    let sectionTitle := crumbOf parentTitle t
    let corr := pages.find? (pageMatches sectionTitle (sectionKeyOf parentTitle) t)
    match cs with
    | .nil => .mk t itemPath (some "docs") (some corr.isSome) (some (contentField corr)) false .nil
    | .cons c rest =>
      .mk t itemPath (some "docs") (some corr.isSome) (some (contentField corr)) true
        (buildHierarchy pages (.cons c rest) itemPath sectionTitle)
/-- `buildHierarchy` over a list of sibling items. -/
def buildHierarchy (pages : List Page) : OForest → String → String → NavForest
  | .nil, _, _ => .nil
  | .cons c rest, parentPath, parentTitle =>
    .cons (buildHierarchyItem pages c parentPath parentTitle)
          (buildHierarchy pages rest parentPath parentTitle)
end

/-- The children built for one flat-format section (lines 894-900): one
item per page of `pages.filter(page => page.section === section.title)`,
in page order, with `hasContent: true` and the page content verbatim;
no `children` key on these items. -/
def flatNavChildren : List Page → NavForest
  | [] => .nil
  | pg :: rest =>
    .cons (.mk pg.subsection pg.path (some pg.ty) (some true) (some (some pg.content)) false .nil)
          (flatNavChildren rest)

/-- The flat-format branch of `buildNavigationStructure` (lines
886-910): one item per section, with a `children` key either way and no
`type`/`hasContent`/`content` keys on the section item itself. -/
def flatNav (pages : List Page) : List FlatSection → NavForest
  | [] => .nil
  | s :: rest =>
    let sectionPages := pages.filter (fun pg => pg.sec == s.title)
    match s.subsections with
    | some _ =>
      .cons (.mk s.title (slugify s.title) none none none true (flatNavChildren sectionPages))
            (flatNav pages rest)
    | none =>
      .cons (.mk s.title (slugify s.title) none none none true .nil)
            (flatNav pages rest)

/-- `buildNavigationStructure` (lines 841-913): the nested shape is
rendered by `buildHierarchy` on the root item's children; the flat
shape by the section/subsection loop. -/
def buildNavigationStructure (ds : DocStructure) (pages : List Page) : NavForest :=
  match ds with
  | .nested root => buildHierarchy pages root.children "" ""
  | .flat secs => flatNav pages secs

mutual
/-- Number of navigation items in a tree, root included. -/
def navSizeItem : NavItem → Nat
  | .mk _ _ _ _ _ _ ch => 1 + navSizeF ch
/-- Number of navigation items in a forest. -/
def navSizeF : NavForest → Nat
  | .nil => 0
  | .cons i t => navSizeItem i + navSizeF t
end

mutual
/-- The bare title tree of an outline node (shape plus titles, nothing
else) — used to state structure preservation. -/
inductive TTree : Type where
  | mk (title : String) (children : TForest)
deriving DecidableEq
/-- A list of title trees. -/
inductive TForest : Type where
  | nil
  | cons (head : TTree) (tail : TForest)
deriving DecidableEq
end

mutual
/-- Title tree of an outline node. -/
def outlineTTItem : ONode → TTree
  | .node t cs => .mk t (outlineTT cs)
/-- Title trees of an outline forest. -/
def outlineTT : OForest → TForest
  | .nil => .nil
  | .cons c rest => .cons (outlineTTItem c) (outlineTT rest)
end

mutual
/-- Title tree of a navigation item. -/
def navTTItem : NavItem → TTree
  | .mk t _ _ _ _ _ ch => .mk t (navTT ch)
/-- Title trees of a navigation forest. -/
def navTT : NavForest → TForest
  | .nil => .nil
  | .cons i rest => .cons (navTTItem i) (navTT rest)
end

/-- A list of leaf titles as a forest of childless title trees. -/
def listTF (xs : List String) : TForest :=
  match xs with
  | [] => .nil
  | x :: rest => .cons (.mk x .nil) (listTF rest)

/-- The title tree the flat outline format describes: one node per
section, whose children are its subsection strings (a section whose
`subsections` field is absent has no children). -/
def flatOutlineTT (secs : List FlatSection) : TForest :=
  match secs with
  | [] => .nil
  | s :: rest => .cons (.mk s.title (listTF (s.subsections.getD []))) (flatOutlineTT rest)

/-- Number of outline nodes the flat format describes: the sections
plus all their subsections. -/
def flatOutlineSize (secs : List FlatSection) : Nat :=
  match secs with
  | [] => 0
  | s :: rest => 1 + (s.subsections.getD []).length + flatOutlineSize rest

mutual
/-- A JSON value (the serializable object graphs the route handlers
exchange). -/
inductive J : Type where
  | null
  | jstr (s : String)
  | jbool (b : Bool)
  | jnum (n : Int)
  | jarr (elems : JList)
  | jobj (fields : JFields)
deriving DecidableEq
/-- A list of JSON values. -/
inductive JList : Type where
  | nil
  | cons (head : J) (tail : JList)
deriving DecidableEq
/-- The ordered key/value fields of a JSON object. -/
inductive JFields : Type where
  | nil
  | cons (key : String) (val : J) (tail : JFields)
deriving DecidableEq
end

mutual
/-- The `JSON.parse(JSON.stringify(navigation, replacer))` round trip
of the POST handler (analyze-repo/route.ts, lines 67-73): the replacer
returns `undefined` for every key named `parent` or `root`, dropping
that key, at every nesting depth; everything else passes through. -/
def stripJ : J → J
  | .null => .null
  | .jstr s => .jstr s
  | .jbool b => .jbool b
  | .jnum n => .jnum n
  | .jarr l => .jarr (stripJL l)
  | .jobj fs => .jobj (stripJF fs)
/-- Key stripping inside an array. -/
def stripJL : JList → JList
  | .nil => .nil
  | .cons v t => .cons (stripJ v) (stripJL t)
/-- Key stripping inside an object: `parent`/`root` keys are removed,
other values are stripped recursively. -/
def stripJF : JFields → JFields
  | .nil => .nil
  | .cons k v t =>
    if k == "parent" || k == "root" then stripJF t
    else .cons k (stripJ v) (stripJF t)
end

mutual
/-- Whether a JSON value contains a `parent` or `root` object key at
any nesting depth. -/
def hasParentRootJ : J → Bool
  | .null => false
  | .jstr _ => false
  | .jbool _ => false
  | .jnum _ => false
  | .jarr l => hasParentRootJL l
  | .jobj fs => hasParentRootJF fs
/-- `hasParentRootJ` over an array. -/
def hasParentRootJL : JList → Bool
  | .nil => false
  | .cons v t => hasParentRootJ v || hasParentRootJL t
/-- `hasParentRootJ` over object fields. -/
def hasParentRootJF : JFields → Bool
  | .nil => false
  | .cons k v t => k == "parent" || k == "root" || hasParentRootJ v || hasParentRootJF t
end

/-- Optional `type` key of a navigation item. -/
def tyField (o : Option String) (rest : JFields) : JFields :=
  match o with
  | some s => .cons "type" (.jstr s) rest
  | none => rest

/-- Optional `hasContent` key of a navigation item. -/
def hcField (o : Option Bool) (rest : JFields) : JFields :=
  match o with
  | some b => .cons "hasContent" (.jbool b) rest
  | none => rest

/-- Optional `content` key of a navigation item (`some none` is
`content: null`). -/
def ctField (o : Option (Option String)) (rest : JFields) : JFields :=
  match o with
  | some none => .cons "content" .null rest
  | some (some s) => .cons "content" (.jstr s) rest
  | none => rest

mutual
/-- The JSON object a navigation item denotes (keys in the insertion
order of `buildNavigationStructure`). -/
def navItemJson : NavItem → J
  | .mk t p ty hc ct ck ch =>
    .jobj (.cons "title" (.jstr t) (.cons "path" (.jstr p)
      (tyField ty (hcField hc (ctField ct
        (match ck with
         | true => .cons "children" (.jarr (navForestJsonL ch)) .nil
         | false => .nil))))))
/-- The JSON array a navigation forest denotes. -/
def navForestJsonL : NavForest → JList
  | .nil => .nil
  | .cons i rest => .cons (navItemJson i) (navForestJsonL rest)
end

/-- The `cleanNavigation` value of the POST handler (lines 63-73):
build the navigation structure, serialize it with the
`parent`/`root`-dropping replacer and parse it back. -/
def cleanNavigationModel (ds : DocStructure) (pages : List Page) : J :=
  stripJ (.jarr (navForestJsonL (buildNavigationStructure ds pages)))

/-- The literal `github.com/` whose occurrence the URL regex
`/github\.com\/([^\/]+)\/([^\/]+)/` looks for. -/
def githubLit : List Char := "github.com/".data

/-- After the greedy owner run, the regex requires a literal `/` and
then a non-empty greedy repo run: given the text remaining after the
owner, return the repo capture if both succeed. -/
def repoPart : List Char → Option (List Char)
  | '/' :: rest3 =>
    if (rest3.takeWhile (fun c => c != '/')).isEmpty then none
    else some (rest3.takeWhile (fun c => c != '/'))
  | _ => none

/-- Attempt to match the URL regex at the start of `l`: the literal,
then a maximal non-empty run of non-`/` characters (greedy `[^\/]+`),
then `/`, then another non-empty run.  Greediness is exact here: a
shorter first run would have to be followed by one of its own non-`/`
characters, so backtracking can never succeed. -/
def tryMatchAt (l : List Char) : Option (List Char × List Char) :=
  if githubLit.isPrefixOf l then
    if ((l.drop githubLit.length).takeWhile (fun c => c != '/')).isEmpty then none
    else
      (repoPart ((l.drop githubLit.length).drop
          (((l.drop githubLit.length).takeWhile (fun c => c != '/')).length))).map
        (fun r => ((l.drop githubLit.length).takeWhile (fun c => c != '/'), r))
  else none

/-- Unanchored search: try every start position from the left, as
`String.prototype.match` does with a non-global regex. -/
def scanMatch : List Char → Option (List Char × List Char)
  | [] => none
  | c :: tail =>
    match tryMatchAt (c :: tail) with
    | some res => some res
    | none => scanMatch tail

/-- `repoUrl.match(/github\.com\/([^\/]+)\/([^\/]+)/)` reduced to its
outcome: `none` when validation fails (the handler answers 400),
otherwise the two capture groups (owner, repo). -/
def matchGithub (s : String) : Option (String × String) :=
  (scanMatch s.data).map (fun p => (⟨p.1⟩, ⟨p.2⟩))

/-- `{ error: msg }`. -/
def jsonError (msg : String) : J :=
  .jobj (.cons "error" (.jstr msg) .nil)

/-- Body of the 400 response for a missing (or falsy) `repoUrl`. -/
def requiredErrBody : J := jsonError "Repository URL is required"

/-- Body of the 400 response for a URL the regex rejects. -/
def invalidErrBody : J := jsonError "Invalid GitHub URL"

/-- Body of the catch-all 500 response of the analyze-repo POST
handler — a constant, mentioning no detail of the thrown error. -/
def failedErrBody : J :=
  jsonError "Failed to analyze repository. Please check the repository URL and try again."

/-- The analyze-repo `POST` handler (lines 19-112) as a function of the
parsed request body and of the rest of the pipeline.  `body` is
`.error` when `request.json()` throws, `.ok none` when the parsed body
has no `repoUrl`, `.ok (some url)` otherwise; an empty `repoUrl` is
falsy in `if (!repoUrl)`, so it takes the same 400 branch as a missing
one.  `pipeline` abstracts steps 1-6 on the captured owner/repo;
whatever error value it throws is caught by the handler's single
`catch`, which answers 500 with the fixed generic body. -/
def handlePost (body : Except String (Option String))
    (pipeline : String → String → Except String J) : Nat × J :=
  match body with
  | .error _ => (500, failedErrBody)
  | .ok none => (400, requiredErrBody)
  | .ok (some url) =>
    if url = "" then (400, requiredErrBody)
    else
      match matchGithub url with
      | none => (400, invalidErrBody)
      | some (o, r) =>
        match pipeline o r with
        | .ok res => (200, res)
        | .error _ => (500, failedErrBody)

/-- The `docPatterns` regex array of `findDocumentationFiles`
(generate-wiki/route.ts, lines 451-459), one Boolean test per regex, in
source order.  All prefix tests and the `readme.md` equality carry the
`i` flag (modelled by lowercasing the path first); `/\.md$/` carries no
flag and is case-sensitive; `/^docs?\//i` also accepts `doc/` and
`/^examples?\//i` also accepts `example/`. -/
def docPatterns : List (String → Bool) :=
  [ fun p => lowerStr p == "readme.md"
  , fun p => List.isPrefixOf "doc/".data (lowerStr p).data
          || List.isPrefixOf "docs/".data (lowerStr p).data
  , fun p => List.isSuffixOf ".md".data p.data
  , fun p => List.isPrefixOf "documentation/".data (lowerStr p).data
  , fun p => List.isPrefixOf "guide/".data (lowerStr p).data
  , fun p => List.isPrefixOf "tutorial/".data (lowerStr p).data
  , fun p => List.isPrefixOf "example/".data (lowerStr p).data
          || List.isPrefixOf "examples/".data (lowerStr p).data ]

/-- `docPatterns.some(pattern => pattern.test(item.path))`. -/
def matchesDocPatterns (p : String) : Bool :=
  docPatterns.any (fun pat => pat p)

/-- The collection criterion exactly as claim C5 states it:
case-insensitively, the path is `readme.md`, or starts with `docs/`,
`documentation/`, `guide/`, `examples/`, `example/` or `tutorial/`, or
ends in `.md`. -/
def claimDocCriterion (p : String) : Bool :=
  lowerStr p == "readme.md"
  || List.isPrefixOf "docs/".data (lowerStr p).data
  || List.isPrefixOf "documentation/".data (lowerStr p).data
  || List.isPrefixOf "guide/".data (lowerStr p).data
  || List.isPrefixOf "examples/".data (lowerStr p).data
  || List.isPrefixOf "example/".data (lowerStr p).data
  || List.isPrefixOf "tutorial/".data (lowerStr p).data
  || List.isSuffixOf ".md".data (lowerStr p).data

/-- The collection criterion as amended: `doc/` is also an accepted
first segment, and the `.md`-suffix test is case-sensitive (the other
tests stay case-insensitive). -/
def amendedDocCriterion (p : String) : Bool :=
  lowerStr p == "readme.md"
  || List.isPrefixOf "doc/".data (lowerStr p).data
  || List.isPrefixOf "docs/".data (lowerStr p).data
  || List.isPrefixOf "documentation/".data (lowerStr p).data
  || List.isPrefixOf "guide/".data (lowerStr p).data
  || List.isPrefixOf "examples/".data (lowerStr p).data
  || List.isPrefixOf "example/".data (lowerStr p).data
  || List.isPrefixOf "tutorial/".data (lowerStr p).data
  || List.isSuffixOf ".md".data p.data

mutual
/-- An entry of a GitHub contents listing, as walked by
`findDocumentationFiles`. -/
inductive FsEntry : Type where
  | file (path : String)
  | dir (path : String) (sub : FsFetch)
deriving DecidableEq
/-- The outcome of fetching a directory's contents: an error (logged
and treated as no files found there) or the entry list. -/
inductive FsFetch : Type where
  | fetchErr
  | fetched (contents : FsForest)
deriving DecidableEq
/-- A list of directory entries. -/
inductive FsForest : Type where
  | nil
  | cons (e : FsEntry) (t : FsForest)
deriving DecidableEq
end

mutual
/-- `findDocumentationFiles` (generate-wiki/route.ts, lines 449-486):
file entries are kept when some pattern matches their path; directory
entries are recursed into, an error fetching a subdirectory
contributing nothing. -/
def findDocumentationFiles : FsForest → List String
  | .nil => []
  | .cons (.file p) t =>
    (if matchesDocPatterns p then [p] else []) ++ findDocumentationFiles t
  | .cons (.dir _ sub) t => findDocFilesDir sub ++ findDocumentationFiles t
/-- The recursion into one fetched directory. -/
def findDocFilesDir : FsFetch → List String
  | .fetchErr => []
  | .fetched c => findDocumentationFiles c
end

mutual
/-- Every file path encountered during the recursive walk (entries of
unfetchable directories are never encountered). -/
def walkFilePaths : FsForest → List String
  | .nil => []
  | .cons (.file p) t => p :: walkFilePaths t
  | .cons (.dir _ sub) t => walkFilePathsDir sub ++ walkFilePaths t
/-- `walkFilePaths` under one fetched directory. -/
def walkFilePathsDir : FsFetch → List String
  | .fetchErr => []
  | .fetched c => walkFilePaths c
end

/-- JavaScript `\w`: ASCII letters, digits and underscore. -/
def wordChar (c : Char) : Bool := c.isAlphanum || c == '_'

/-- `.replace(/\b\w/g, l => l.toUpperCase())`: uppercase every word
character that sits at a word boundary, i.e. whose predecessor is
absent or not a word character.  The Boolean carries whether the
previous character was a word character. -/
def upperBoundariesAux : Bool → List Char → List Char
  | _, [] => []
  | prevW, c :: cs =>
    (if wordChar c && !prevW then c.toUpper else c) :: upperBoundariesAux (wordChar c) cs

/-- `.replace(/[-_]/g, ' ')`. -/
def replaceDashUnderscore (l : List Char) : List Char :=
  l.map (fun c => if c == '-' || c == '_' then ' ' else c)

/-- `path.split('/').pop() || ''`: the characters after the last `/`. -/
def lastComponent (l : List Char) : List Char :=
  (l.reverse.takeWhile (fun c => c != '/')).reverse

/-- `filename.replace(/\.(md|txt|rst)$/i, '')`: remove a trailing
`.md`, `.txt` or `.rst` in any letter case; leave every other name
untouched. -/
def stripExtCode (l : List Char) : List Char :=
  let low := l.map lowerChar
  if List.isSuffixOf ".md".data low then l.take (l.length - 3)
  else if List.isSuffixOf ".txt".data low then l.take (l.length - 4)
  else if List.isSuffixOf ".rst".data low then l.take (l.length - 4)
  else l

/-- `getTitleFromPath` (generate-wiki/route.ts, lines 488-496). -/
def getTitleFromPath (path : String) : String :=
  ⟨upperBoundariesAux false (replaceDashUnderscore (stripExtCode (lastComponent path.data)))⟩

/-- Remove the extension — everything from the last dot on — whatever
it is; the filename is left alone when it has no dot. -/
def removeAnyExt (l : List Char) : List Char :=
  let r := l.reverse
  let ext := r.takeWhile (fun c => c != '.')
  if ext.length = r.length then l else (r.drop (ext.length + 1)).reverse

/-- The title derivation exactly as claim C9 states it: the filename
without its extension, `-`/`_` replaced by spaces, each word
title-cased (first character of each word-character run uppercased). -/
def claimTitleFromPath (path : String) : String :=
  ⟨upperBoundariesAux false (replaceDashUnderscore (removeAnyExt (lastComponent path.data)))⟩

/-- Remove the extension only when it — the part after the last dot,
compared case-insensitively — is `md`, `txt` or `rst`; keep every other
extension. -/
def removeDocExt (l : List Char) : List Char :=
  let rlow := (l.map lowerChar).reverse
  let ext := rlow.takeWhile (fun c => c != '.')
  if ext.length < rlow.length
     && (ext.reverse == "md".data || ext.reverse == "txt".data || ext.reverse == "rst".data) then
    (l.reverse.drop (ext.length + 1)).reverse
  else l

/-- The title derivation as amended: like `claimTitleFromPath` but the
extension is removed only when it is `.md`, `.txt` or `.rst`
(case-insensitively). -/
def amendedTitleFromPath (path : String) : String :=
  ⟨upperBoundariesAux false (replaceDashUnderscore (removeDocExt (lastComponent path.data)))⟩

mutual
/-- The breadcrumbs of the nodes of a tree, in depth-first preorder:
the node's own breadcrumb first, then those of its descendants. -/
def crumbsO : ONode → String → List String
  | .node t cs, parentTitle => crumbOf parentTitle t :: crumbsF cs (crumbOf parentTitle t)
/-- The breadcrumbs of a forest in depth-first preorder. -/
def crumbsF : OForest → String → List String
  | .nil, _ => []
  | .cons c rest, parentTitle => crumbsO c parentTitle ++ crumbsF rest parentTitle
end

mutual
/-- For every node of a tree, in preorder: its title, its breadcrumb
and the section key it is looked up under. -/
def nodeMetaO : ONode → String → List (String × String × String)
  | .node t cs, parentTitle =>
    (t, crumbOf parentTitle t, sectionKeyOf parentTitle) :: nodeMetaF cs (crumbOf parentTitle t)
/-- `nodeMetaO` over a forest. -/
def nodeMetaF : OForest → String → List (String × String × String)
  | .nil, _ => []
  | .cons c rest, parentTitle => nodeMetaO c parentTitle ++ nodeMetaF rest parentTitle
end

mutual
/-- All navigation items of a tree in preorder (the item itself first,
then its descendants). -/
def navFlattenItem : NavItem → List NavItem
  | .mk t p ty hc ct ck ch => .mk t p ty hc ct ck ch :: navFlattenF ch
/-- All navigation items of a forest in preorder. -/
def navFlattenF : NavForest → List NavItem
  | .nil => []
  | .cons i rest => navFlattenItem i ++ navFlattenF rest
end

/-- The `(hasContent, content)` pairs of the top-level items of a
navigation forest. -/
def navContentsF : NavForest → List (Option Bool × Option (Option String))
  | .nil => []
  | .cons i rest => (i.hasContent, i.content) :: navContentsF rest

/-- What claim C4 predicts for one node, from its metadata: whether a
page matches (first match by breadcrumb or (section, subsection)
equality), and the `content` field that match induces. -/
def expectedPair (pages : List Page) (m : String × String × String) :
    Option Bool × Option (Option String) :=
  (some (pages.find? (pageMatches m.2.1 m.2.2 m.1)).isSome,
   some (contentField (pages.find? (pageMatches m.2.1 m.2.2 m.1))))

/-- Claim C10's characterization, at character-list level: the text
contains, anywhere within it, the literal `github.com/` followed by a
non-empty slash-free segment, a slash, and another non-empty
slash-free segment. -/
def ContainsAtList (l : List Char) : Prop :=
  ∃ pre o r post : List Char,
    l = pre ++ (githubLit ++ (o ++ ('/' :: (r ++ post))))
    ∧ o ≠ [] ∧ r ≠ [] ∧ (∀ c ∈ o, c ≠ '/') ∧ (∀ c ∈ r, c ≠ '/')

/-- Claim C10's characterization of the strings the URL validation
accepts. -/
def containsGithubRepoRef (s : String) : Prop := ContainsAtList s.data

/-- C2: whenever the external structure-generation call fails — for any
error value whatsoever — `generateDocumentationStructure` returns the
fixed default outline, which consists of exactly five top-level
sections titled Getting Started, Architecture, Development, API
Reference and Contributing, each carrying exactly three fixed
subsections; the fallback is a constant, so structure synthesis always
yields an outline. -/
theorem c2_structure_fallback :
    (∀ e : String, generateDocumentationStructure (.error e) = .flat defaultSections)
    ∧ defaultSections.length = 5
    ∧ defaultSections.map FlatSection.title =
        ["Getting Started", "Architecture", "Development", "API Reference", "Contributing"]
    ∧ (defaultSections.all fun s => (s.subsections.getD []).length == 3 && s.subsections.isSome) = true := by
  refine ⟨fun e => rfl, rfl, rfl, by decide⟩

/-- C7: the analyze-repo POST handler answers 400 with the fixed
`{ error }` body when `repoUrl` is missing (or falsy-empty) and when
the URL does not contain a `github.com/{owner}/{repo}` match; and for
every error any later pipeline step throws — whatever that error value
is — it answers 500 with the one generic `{ error }` body, so no
internal error detail ever reaches the caller. -/
theorem c7_clean_error_responses :
    (∀ pl, handlePost (.ok none) pl = (400, requiredErrBody))
    ∧ (∀ pl, handlePost (.ok (some "")) pl = (400, requiredErrBody))
    ∧ (∀ url pl, url ≠ "" → matchGithub url = none →
        handlePost (.ok (some url)) pl = (400, invalidErrBody))
    ∧ (∀ url o r pl e, matchGithub url = some (o, r) → pl o r = .error e →
        handlePost (.ok (some url)) pl = (500, failedErrBody))
    ∧ (∀ e pl, handlePost (.error e) pl = (500, failedErrBody)) := by
  refine ⟨fun pl => rfl, fun pl => rfl, ?_, ?_, fun e pl => rfl⟩
  · intro url pl hne hm
    simp [handlePost, hne, hm]
  · intro url o r pl e hm hp
    have hne : url ≠ "" := by
      intro h
      rw [h] at hm
      exact Option.noConfusion ((rfl : matchGithub "" = none) ▸ hm)
    simp [handlePost, hne, hm, hp]

/-- Witness for C7 at concrete inputs: a string the regex rejects gets
the 400 body, and a pipeline that throws a revealing error message
still gets the constant 500 body. -/
theorem c7_clean_error_responses_witness :
    handlePost (.ok (some "u")) (fun _ _ => .ok .null) = (400, invalidErrBody)
    ∧ handlePost (.ok (some "https://github.com/a/b"))
        (fun _ _ => .error "TypeError: secret stack frame") = (500, failedErrBody) :=
  ⟨c7_clean_error_responses.2.2.1 "u" _ (by decide) (by decide),
   c7_clean_error_responses.2.2.2.1 "https://github.com/a/b" "a" "b" _
     "TypeError: secret stack frame" (by decide) rfl⟩

mutual
/-- After stripping, a JSON value has no `parent`/`root` key left at
any depth. -/
theorem hasParentRootJ_stripJ : ∀ j : J, hasParentRootJ (stripJ j) = false
  | .null => rfl
  | .jstr _ => rfl
  | .jbool _ => rfl
  | .jnum _ => rfl
  | .jarr l => by simp [stripJ, hasParentRootJ, hasParentRootJL_stripJL l]
  | .jobj fs => by simp [stripJ, hasParentRootJ, hasParentRootJF_stripJF fs]
/-- `hasParentRootJ_stripJ` for arrays. -/
theorem hasParentRootJL_stripJL : ∀ l : JList, hasParentRootJL (stripJL l) = false
  | .nil => rfl
  | .cons v t => by
    simp [stripJL, hasParentRootJL, hasParentRootJ_stripJ v, hasParentRootJL_stripJL t]
/-- `hasParentRootJ_stripJ` for object fields. -/
theorem hasParentRootJF_stripJF : ∀ fs : JFields, hasParentRootJF (stripJF fs) = false
  | .nil => rfl
  | .cons k v t => by
    by_cases h : (k == "parent" || k == "root") = true
    · simp [stripJF, h, hasParentRootJF_stripJF t]
    · simp only [Bool.or_eq_true, beq_iff_eq, not_or] at h
      simp [stripJF, hasParentRootJF, h.1, h.2, hasParentRootJ_stripJ v,
        hasParentRootJF_stripJF t]
end

mutual
/-- Stripping is the identity on a value that has no `parent`/`root`
key anywhere. -/
theorem stripJ_clean : ∀ j : J, hasParentRootJ j = false → stripJ j = j
  | .null, _ => rfl
  | .jstr _, _ => rfl
  | .jbool _, _ => rfl
  | .jnum _, _ => rfl
  | .jarr l, h => by
    simp only [hasParentRootJ] at h
    simp [stripJ, stripJL_clean l h]
  | .jobj fs, h => by
    simp only [hasParentRootJ] at h
    simp [stripJ, stripJF_clean fs h]
theorem stripJL_clean : ∀ l : JList, hasParentRootJL l = false → stripJL l = l
  | .nil, _ => rfl
  | .cons v t, h => by
    simp only [hasParentRootJL, Bool.or_eq_false_iff] at h
    simp [stripJL, stripJ_clean v h.1, stripJL_clean t h.2]
theorem stripJF_clean : ∀ fs : JFields, hasParentRootJF fs = false → stripJF fs = fs
  | .nil, _ => rfl
  | .cons k v t, h => by
    simp only [hasParentRootJF, Bool.or_eq_false_iff, beq_eq_false_iff_ne] at h
    obtain ⟨⟨⟨hk1, hk2⟩, hv⟩, ht⟩ := h
    have hk : (k == "parent" || k == "root") = false := by
      simp [hk1, hk2]
    simp [stripJF, hk, stripJ_clean v hv, stripJF_clean t ht]
end

mutual
/-- The JSON emitted for a navigation item only uses the keys `title`,
`path`, `type`, `hasContent`, `content` and `children`, so it never
contains a `parent`/`root` key. -/
theorem hasParentRoot_navItemJson : ∀ i : NavItem, hasParentRootJ (navItemJson i) = false
  | .mk t p ty hc ct ck ch => by
    cases ty <;> cases hc <;> rcases ct with _ | (_ | _) <;> cases ck <;>
      simp [navItemJson, tyField, hcField, ctField, hasParentRootJ, hasParentRootJF,
        hasParentRootJL, hasParentRoot_navForestJsonL ch]
/-- `hasParentRoot_navItemJson` over a forest. -/
theorem hasParentRoot_navForestJsonL : ∀ nf : NavForest, hasParentRootJL (navForestJsonL nf) = false
  | .nil => rfl
  | .cons i rest => by
    simp [navForestJsonL, hasParentRootJL, hasParentRoot_navItemJson i,
      hasParentRoot_navForestJsonL rest]
end

/-- C6: the navigation structure returned to the client contains no
`parent` or `root` key at any nesting depth — the replacer strips those
keys recursively from an arbitrary JSON value, and on the Navigation
Assembler's actual output the strip is a no-op because the assembler
never attaches such back-references, so the serialized value is a
finite tree and the round trip is total. -/
theorem c6_no_parent_root_keys :
    (∀ j : J, hasParentRootJ (stripJ j) = false)
    ∧ (∀ (ds : DocStructure) (pages : List Page),
        cleanNavigationModel ds pages
          = .jarr (navForestJsonL (buildNavigationStructure ds pages)))
    ∧ (∀ (ds : DocStructure) (pages : List Page),
        hasParentRootJ (cleanNavigationModel ds pages) = false) := by
  refine ⟨hasParentRootJ_stripJ, ?_, ?_⟩
  · intro ds pages
    exact stripJ_clean _ (by
      simp [hasParentRootJ, hasParentRoot_navForestJsonL])
  · intro ds pages
    exact hasParentRootJ_stripJ _

mutual
/-- `findDocumentationFiles` collects exactly the file paths of the
walk that satisfy the pattern test, in walk order. -/
theorem findDocumentationFiles_filter :
    ∀ fs : FsForest, findDocumentationFiles fs = (walkFilePaths fs).filter matchesDocPatterns
  | .nil => rfl
  | .cons (.file p) t => by
    by_cases h : matchesDocPatterns p = true
    · simp [findDocumentationFiles, walkFilePaths, List.filter_cons, h,
        findDocumentationFiles_filter t]
    · simp [findDocumentationFiles, walkFilePaths, List.filter_cons, h,
        findDocumentationFiles_filter t]
  | .cons (.dir d sub) t => by
    simp [findDocumentationFiles, walkFilePaths, List.filter_append,
      findDocFilesDir_filter sub, findDocumentationFiles_filter t]
/-- `findDocumentationFiles_filter` under one fetched directory. -/
theorem findDocFilesDir_filter :
    ∀ sub : FsFetch, findDocFilesDir sub = (walkFilePathsDir sub).filter matchesDocPatterns
  | .fetchErr => rfl
  | .fetched c => findDocumentationFiles_filter c
end

/-- C5 fails as stated: the code's `/^docs?\//i` also collects paths
under `doc/`, which the claim's criterion rejects, and the code's
`/\.md$/` has no `i` flag, so a path ending in `.MD` that the claim's
case-insensitive criterion collects is not collected. -/
theorem c5_counterexample :
    matchesDocPatterns "doc/notes.txt" = true
    ∧ claimDocCriterion "doc/notes.txt" = false
    ∧ matchesDocPatterns "NOTES.MD" = false
    ∧ claimDocCriterion "NOTES.MD" = true := by
  decide

/-- C5 (amended): a path is collected iff, case-insensitively, it is
exactly `readme.md`, or starts with `doc/`, `docs/`, `documentation/`,
`guide/`, `examples/`, `example/` or `tutorial/`, or ends in `.md` in
that exact letter case; and this criterion is applied to every file
entry encountered during the recursive walk (entries of directories
whose fetch fails are never encountered). -/
theorem c5_doc_file_criterion :
    (∀ p : String, matchesDocPatterns p = amendedDocCriterion p)
    ∧ (∀ fs : FsForest,
        findDocumentationFiles fs = (walkFilePaths fs).filter matchesDocPatterns) := by
  refine ⟨?_, findDocumentationFiles_filter⟩
  intro p
  simp only [matchesDocPatterns, docPatterns, List.any_cons, List.any_nil, amendedDocCriterion]
  rw [Bool.eq_iff_iff]
  simp only [Bool.or_eq_true]
  tauto

mutual
/-- `buildHierarchy` preserves the outline's shape node by node: the
navigation item built for an outline node has the same title and the
same child structure, whatever the pages are. -/
theorem navTTItem_buildHierarchyItem :
    ∀ (pages : List Page) (n : ONode) (pp pt : String),
      navTTItem (buildHierarchyItem pages n pp pt) = outlineTTItem n
  | pages, .node t cs, pp, pt => by
    cases cs with
    | nil => simp [buildHierarchyItem, navTTItem, outlineTTItem, outlineTT, navTT]
    | cons c rest =>
      simp [buildHierarchyItem, navTTItem, outlineTTItem,
        navTT_buildHierarchy pages (.cons c rest) (itemPathOf pp t) (crumbOf pt t)]
/-- `navTTItem_buildHierarchyItem` over a forest. -/
theorem navTT_buildHierarchy :
    ∀ (pages : List Page) (f : OForest) (pp pt : String),
      navTT (buildHierarchy pages f pp pt) = outlineTT f
  | _, .nil, _, _ => rfl
  | pages, .cons c rest, pp, pt => by
    simp [buildHierarchy, navTT, outlineTT, navTTItem_buildHierarchyItem pages c pp pt,
      navTT_buildHierarchy pages rest pp pt]
end

mutual
/-- `buildHierarchy` creates exactly one navigation item per outline
node. -/
theorem navSizeItem_buildHierarchyItem :
    ∀ (pages : List Page) (n : ONode) (pp pt : String),
      navSizeItem (buildHierarchyItem pages n pp pt) = sizeO n
  | pages, .node t cs, pp, pt => by
    cases cs with
    | nil => simp [buildHierarchyItem, navSizeItem, sizeO, sizeF, navSizeF]
    | cons c rest =>
      simp [buildHierarchyItem, navSizeItem, sizeO,
        navSizeF_buildHierarchy pages (.cons c rest) (itemPathOf pp t) (crumbOf pt t)]
/-- `navSizeItem_buildHierarchyItem` over a forest. -/
theorem navSizeF_buildHierarchy :
    ∀ (pages : List Page) (f : OForest) (pp pt : String),
      navSizeF (buildHierarchy pages f pp pt) = sizeF f
  | _, .nil, _, _ => rfl
  | pages, .cons c rest, pp, pt => by
    simp [buildHierarchy, navSizeF, sizeF, navSizeItem_buildHierarchyItem pages c pp pt,
      navSizeF_buildHierarchy pages rest pp pt]
end

/-- Every page the flat-format inner loop produces carries the section
title it was produced under. -/
theorem flatSubsProcess_sec (oracle : Oracle) (st : String) :
    ∀ (subs : List String) (k : Nat),
      ∀ pg ∈ (flatSubsProcess oracle st subs k).1, pg.sec = st := by
  intro subs
  induction subs with
  | nil => intro k pg h; simp [flatSubsProcess] at h
  | cons item rest ih =>
    intro k pg h
    simp only [flatSubsProcess, List.mem_cons] at h
    rcases h with h | h
    · rw [h]
    · exact ih (k + 1) pg h

/-- The flat-format inner loop produces exactly one page per
subsection, in order, titled by it. -/
theorem flatSubsProcess_map_subsection (oracle : Oracle) (st : String) :
    ∀ (subs : List String) (k : Nat),
      (flatSubsProcess oracle st subs k).1.map Page.subsection = subs := by
  intro subs
  induction subs with
  | nil => intro k; rfl
  | cons item rest ih =>
    intro k
    simp [flatSubsProcess, ih (k + 1)]

/-- Every page the flat-format loop produces belongs to one of the
sections of the outline. -/
theorem flatProcess_sec_mem (oracle : Oracle) :
    ∀ (secs : List FlatSection) (k : Nat),
      ∀ pg ∈ (flatProcess oracle secs k).1, pg.sec ∈ secs.map FlatSection.title := by
  intro secs
  induction secs with
  | nil => intro k pg h; simp [flatProcess] at h
  | cons s rest ih =>
    intro k pg h
    match hs : s.subsections with
    | none =>
      simp only [flatProcess, hs] at h
      simp [ih k pg h]
    | some subs =>
      simp only [flatProcess, hs, List.mem_append] at h
      rcases h with h | h
      · simp [flatSubsProcess_sec oracle s.title subs k pg h]
      · simp [ih _ pg h]

/-- With pairwise-distinct section titles, filtering the whole
pipeline page list by one section's title returns exactly that
section's pages, whose subsection labels are its subsection list. -/
theorem flatProcess_filter_map (oracle : Oracle) :
    ∀ (secs : List FlatSection) (k : Nat) (s : FlatSection) (subs : List String),
      s ∈ secs → (secs.map FlatSection.title).Nodup → s.subsections = some subs →
      ((flatProcess oracle secs k).1.filter (fun pg => pg.sec == s.title)).map Page.subsection
        = subs := by
  intro secs
  induction secs with
  | nil => intro k s subs hmem; simp at hmem
  | cons s0 rest ih =>
    intro k s subs hmem hnd hsubs
    have hnd' := hnd
    simp only [List.map_cons, List.nodup_cons] at hnd'
    obtain ⟨hnotin, hndrest⟩ := hnd'
    rcases List.mem_cons.mp hmem with heq | hmemrest
    · subst heq
      simp only [flatProcess, hsubs, List.filter_append, List.map_append]
      have hown : ((flatSubsProcess oracle s.title subs k).1.filter
          (fun pg => pg.sec == s.title)) = (flatSubsProcess oracle s.title subs k).1 := by
        apply List.filter_eq_self.mpr
        intro pg hpg
        simp [flatSubsProcess_sec oracle s.title subs k pg hpg]
      have hrest : ((flatProcess oracle rest
            (flatSubsProcess oracle s.title subs k).2).1.filter
          (fun pg => pg.sec == s.title)) = [] := by
        apply List.filter_eq_nil_iff.mpr
        intro pg hpg
        have := flatProcess_sec_mem oracle rest _ pg hpg
        simp only [beq_iff_eq]
        intro hcontra
        exact hnotin (hcontra ▸ this)
      rw [hown, hrest, flatSubsProcess_map_subsection, List.map_nil, List.append_nil]
    · have htitle : s.title ≠ s0.title := by
        intro hcontra
        exact hnotin (hcontra ▸ List.mem_map_of_mem FlatSection.title hmemrest)
      match hs0 : s0.subsections with
      | none =>
        simp only [flatProcess, hs0]
        exact ih k s subs hmemrest hndrest hsubs
      | some subs0 =>
        simp only [flatProcess, hs0, List.filter_append, List.map_append]
        have hown : ((flatSubsProcess oracle s0.title subs0 k).1.filter
            (fun pg => pg.sec == s.title)) = [] := by
          apply List.filter_eq_nil_iff.mpr
          intro pg hpg
          have := flatSubsProcess_sec oracle s0.title subs0 k pg hpg
          simp only [beq_iff_eq]
          intro hcontra
          exact htitle (by rw [← hcontra, this])
        rw [hown, List.map_nil, List.nil_append]
        exact ih _ s subs hmemrest hndrest hsubs

/-- The children built for a flat section are its matching pages'
subsection labels, as a leaf forest. -/
theorem navTT_flatNavChildren :
    ∀ l : List Page, navTT (flatNavChildren l) = listTF (l.map Page.subsection) := by
  intro l
  induction l with
  | nil => rfl
  | cons pg rest ih => simp [flatNavChildren, navTT, navTTItem, listTF, ih]

/-- When the pages filtered for each section are exactly its
subsections (in order), the flat navigation mirrors the flat outline. -/
theorem navTT_flatNav :
    ∀ (pages : List Page) (secs : List FlatSection),
      (∀ s ∈ secs, ∀ subs, s.subsections = some subs →
        (pages.filter (fun pg => pg.sec == s.title)).map Page.subsection = subs) →
      navTT (flatNav pages secs) = flatOutlineTT secs := by
  intro pages secs
  induction secs with
  | nil => intro _; rfl
  | cons s rest ih =>
    intro h
    have hrest := ih (fun s' hs' => h s' (List.mem_cons_of_mem s hs'))
    match hs : s.subsections with
    | none => simp [flatNav, hs, navTT, navTTItem, flatOutlineTT, listTF, hrest]
    | some subs =>
      have hhead := h s (List.mem_cons_self s rest) subs hs
      simp [flatNav, hs, navTT, navTTItem, flatOutlineTT, navTT_flatNavChildren, hhead, hrest]

/-- C3 (amended): in the nested shape the Navigation Assembler
produces, for any pages list, exactly one NavigationItem per outline
node under the root wrapper, with the outline's titles, nesting depth
and sibling order; in the flat shape it produces one item per section
in order whose children are one item per matching Page in page order —
so, for the pages the Content Enhancer itself generated and
distinct section titles, exactly one item per outline node — but a
subsection without a matching Page gets no NavigationItem. -/
theorem c3_one_item_per_node :
    (∀ (pages : List Page) (root : ONode),
        navTT (buildNavigationStructure (.nested root) pages) = outlineTT root.children)
    ∧ (∀ (pages : List Page) (root : ONode),
        navSizeF (buildNavigationStructure (.nested root) pages) = sizeF root.children)
    ∧ (∀ (oracle : Oracle) (secs : List FlatSection),
        (secs.map FlatSection.title).Nodup →
        navTT (buildNavigationStructure (.flat secs)
          (fetchAndEnhanceDocumentation oracle (.flat secs))) = flatOutlineTT secs) := by
  refine ⟨?_, ?_, ?_⟩
  · intro pages root
    exact navTT_buildHierarchy pages root.children "" ""
  · intro pages root
    exact navSizeF_buildHierarchy pages root.children "" ""
  · intro oracle secs hnd
    apply navTT_flatNav
    intro s hs subs hsubs
    exact flatProcess_filter_map oracle secs 0 s subs hs hnd hsubs

/-- Witness for C3 at the default outline: with distinct section
titles and the pipeline's own pages, the flat navigation mirrors the
flat outline exactly. -/
theorem c3_one_item_per_node_witness :
    navTT (buildNavigationStructure (.flat defaultSections)
      (fetchAndEnhanceDocumentation (fun _ => .ok "generated") (.flat defaultSections)))
      = flatOutlineTT defaultSections :=
  c3_one_item_per_node.2.2 (fun _ => .ok "generated") defaultSections (by decide)

/-- C3 fails as stated: for the flat outline with one section `A`
holding one subsection `X` and an empty pages list, the assembler
produces a single NavigationItem, although the outline has two
OutlineNodes — the unmatched subsection gets no item at all. -/
theorem c3_counterexample :
    navSizeF (buildNavigationStructure (.flat [⟨"A", some ["X"]⟩]) []) = 1
    ∧ flatOutlineSize [⟨"A", some ["X"]⟩] = 2 := by
  decide

mutual
/-- For every outline node at any depth, the navigation item built for
it carries exactly the `hasContent`/`content` pair predicted from the
first page matching its breadcrumb or (section, subsection) key. -/
theorem navFlatten_buildHierarchyItem :
    ∀ (pages : List Page) (n : ONode) (pp pt : String),
      (navFlattenItem (buildHierarchyItem pages n pp pt)).map
          (fun nv => (nv.hasContent, nv.content))
        = (nodeMetaO n pt).map (expectedPair pages)
  | pages, .node t cs, pp, pt => by
    cases cs with
    | nil =>
      simp [buildHierarchyItem, navFlattenItem, navFlattenF, nodeMetaO, nodeMetaF,
        NavItem.hasContent, NavItem.content, expectedPair]
    | cons c rest =>
      simp only [buildHierarchyItem, navFlattenItem, nodeMetaO, List.map_cons]
      congr 1
      exact navFlatten_buildHierarchy pages (.cons c rest) (itemPathOf pp t) (crumbOf pt t)
/-- `navFlatten_buildHierarchyItem` over a forest. -/
theorem navFlatten_buildHierarchy :
    ∀ (pages : List Page) (f : OForest) (pp pt : String),
      (navFlattenF (buildHierarchy pages f pp pt)).map
          (fun nv => (nv.hasContent, nv.content))
        = (nodeMetaF f pt).map (expectedPair pages)
  | _, .nil, _, _ => rfl
  | pages, .cons c rest, pp, pt => by
    simp [buildHierarchy, navFlattenF, nodeMetaF,
      navFlatten_buildHierarchyItem pages c pp pt,
      navFlatten_buildHierarchy pages rest pp pt]
end

/-- Every child item built for a flat section carries
`hasContent: true` and the matching page's content verbatim. -/
theorem navContentsF_flatNavChildren :
    ∀ l : List Page,
      navContentsF (flatNavChildren l)
        = l.map (fun pg => (some true, some (some pg.content))) := by
  intro l
  induction l with
  | nil => rfl
  | cons pg rest ih =>
    simp [flatNavChildren, navContentsF, NavItem.hasContent, NavItem.content, ih]

/-- Flat-format section items carry no `hasContent` and no `content`
key at all, whatever the pages are. -/
theorem navContentsF_flatNav :
    ∀ (pages : List Page) (secs : List FlatSection),
      navContentsF (flatNav pages secs)
        = secs.map (fun _ => ((none : Option Bool), (none : Option (Option String)))) := by
  intro pages secs
  induction secs with
  | nil => rfl
  | cons s rest ih =>
    match hs : s.subsections with
    | none => simp [flatNav, hs, navContentsF, NavItem.hasContent, NavItem.content, ih]
    | some subs => simp [flatNav, hs, navContentsF, NavItem.hasContent, NavItem.content, ih]

/-- C4 (amended): in the nested shape, each node's NavigationItem has
`hasContent` true exactly when a Page matches it (first match by exact
breadcrumb equality or by (section, subsection) equality, the section
key defaulting to `Documentation` at top level), and `content` equal
to that Page's markdown when the markdown is non-empty — a matching
Page with empty markdown yields `hasContent` true but `content` null,
and no match yields false/null.  In the flat shape, section items
carry no `hasContent`/`content` keys, and one child item per matching
Page carries `hasContent` true with the Page's markdown verbatim. -/
theorem c4_has_content_matching :
    (∀ (pages : List Page) (root : ONode),
        (navFlattenF (buildNavigationStructure (.nested root) pages)).map
            (fun nv => (nv.hasContent, nv.content))
          = (nodeMetaF root.children "").map (expectedPair pages))
    ∧ (∀ l : List Page,
        navContentsF (flatNavChildren l)
          = l.map (fun pg => (some true, some (some pg.content))))
    ∧ (∀ (pages : List Page) (secs : List FlatSection),
        navContentsF (buildNavigationStructure (.flat secs) pages)
          = secs.map (fun _ => ((none : Option Bool), (none : Option (Option String))))) := by
  refine ⟨?_, navContentsF_flatNavChildren, ?_⟩
  · intro pages root
    exact navFlatten_buildHierarchy pages root.children "" ""
  · intro pages secs
    exact navContentsF_flatNav pages secs

/-- C4 fails as stated: a Page that matches its node but has empty
markdown yields `hasContent` true and `content` null (the JavaScript
`|| null` coerces the falsy empty string), not `content` equal to the
Page's markdown `""`. -/
theorem c4_counterexample :
    navContentsF (buildNavigationStructure
        (.nested (.node "Root" (.cons (.node "Install" .nil) .nil)))
        [{ title := "Install", content := "", path := "install", ty := "docs",
           sec := "Documentation", subsection := "Install", fullPath := some "Install" }])
      = [(some true, some none)]
    ∧ (some none : Option (Option String)) ≠ some (some "") := by
  decide

mutual
/-- Processing one outline item makes exactly `sizeO` generation
calls — one for the node and one for each descendant, and none
besides (in particular no retry). -/
theorem processOneSection_counter :
    ∀ (oracle : Oracle) (n : ONode) (pp pt : String) (k : Nat),
      (processOneSection oracle n pp pt k).2 = k + sizeO n
  | oracle, .node t cs, pp, pt, k => by
    simp only [processOneSection, sizeO,
      processAllSections_counter oracle cs (itemPathOf pp t) (crumbOf pt t) (k + 1)]
    omega
/-- `processOneSection_counter` over a forest. -/
theorem processAllSections_counter :
    ∀ (oracle : Oracle) (f : OForest) (pp pt : String) (k : Nat),
      (processAllSections oracle f pp pt k).2 = k + sizeF f
  | _, .nil, _, _, k => by simp [processAllSections, sizeF]
  | oracle, .cons c rest, pp, pt, k => by
    simp only [processAllSections, sizeF, processOneSection_counter oracle c pp pt k,
      processAllSections_counter oracle rest pp pt (k + sizeO c)]
    omega
end

mutual
/-- Processing one outline item produces exactly one page per node of
its subtree. -/
theorem processOneSection_length :
    ∀ (oracle : Oracle) (n : ONode) (pp pt : String) (k : Nat),
      (processOneSection oracle n pp pt k).1.length = sizeO n
  | oracle, .node t cs, pp, pt, k => by
    simp only [processOneSection, sizeO, List.length_cons,
      processAllSections_length oracle cs (itemPathOf pp t) (crumbOf pt t) (k + 1)]
    omega
/-- `processOneSection_length` over a forest. -/
theorem processAllSections_length :
    ∀ (oracle : Oracle) (f : OForest) (pp pt : String) (k : Nat),
      (processAllSections oracle f pp pt k).1.length = sizeF f
  | _, .nil, _, _, _ => rfl
  | oracle, .cons c rest, pp, pt, k => by
    simp only [processAllSections, sizeF, List.length_append,
      processOneSection_length oracle c pp pt k,
      processAllSections_length oracle rest pp pt ((processOneSection oracle c pp pt k).2)]
end

mutual
/-- The pages of one subtree list exactly its breadcrumbs, in
depth-first preorder: the node's own page comes first, then its
descendants'. -/
theorem processOneSection_crumbs :
    ∀ (oracle : Oracle) (n : ONode) (pp pt : String) (k : Nat),
      (processOneSection oracle n pp pt k).1.map Page.fullPath = (crumbsO n pt).map some
  | oracle, .node t cs, pp, pt, k => by
    simp [processOneSection, crumbsO,
      processAllSections_crumbs oracle cs (itemPathOf pp t) (crumbOf pt t) (k + 1)]
/-- `processOneSection_crumbs` over a forest. -/
theorem processAllSections_crumbs :
    ∀ (oracle : Oracle) (f : OForest) (pp pt : String) (k : Nat),
      (processAllSections oracle f pp pt k).1.map Page.fullPath = (crumbsF f pt).map some
  | _, .nil, _, _, _ => rfl
  | oracle, .cons c rest, pp, pt, k => by
    simp [processAllSections, crumbsF, processOneSection_crumbs oracle c pp pt k,
      processAllSections_crumbs oracle rest pp pt ((processOneSection oracle c pp pt k).2)]
end

mutual
/-- The i-th page produced for a subtree gets its content from the
(k+i)-th generation call, applied to that page's own section and
subsection labels: one call per page, in page order. -/
theorem processOneSection_content_at :
    ∀ (oracle : Oracle) (n : ONode) (pp pt : String) (k i : Nat)
      (h : i < (processOneSection oracle n pp pt k).1.length),
      ((processOneSection oracle n pp pt k).1[i]).content
        = generateEnhancedSectionContent
            ((processOneSection oracle n pp pt k).1[i]).sec
            ((processOneSection oracle n pp pt k).1[i]).subsection
            (oracle (k + i))
  | oracle, .node t cs, pp, pt, k, i, h => by
    match i with
    | 0 => simp [processOneSection]
    | j + 1 =>
      have h' : j < (processAllSections oracle cs (itemPathOf pp t) (crumbOf pt t) (k + 1)).1.length := by
        have := h
        simp only [processOneSection, List.length_cons] at this
        omega
      have ih := processAllSections_content_at oracle cs (itemPathOf pp t) (crumbOf pt t)
        (k + 1) j h'
      have harith : k + 1 + j = k + (j + 1) := by omega
      rw [harith] at ih
      simpa [processOneSection] using ih
/-- `processOneSection_content_at` over a forest. -/
theorem processAllSections_content_at :
    ∀ (oracle : Oracle) (f : OForest) (pp pt : String) (k i : Nat)
      (h : i < (processAllSections oracle f pp pt k).1.length),
      ((processAllSections oracle f pp pt k).1[i]).content
        = generateEnhancedSectionContent
            ((processAllSections oracle f pp pt k).1[i]).sec
            ((processAllSections oracle f pp pt k).1[i]).subsection
            (oracle (k + i))
  | oracle, .cons c rest, pp, pt, k, i, h => by
    have hlen1 : (processOneSection oracle c pp pt k).1.length = sizeO c :=
      processOneSection_length oracle c pp pt k
    by_cases hi : i < (processOneSection oracle c pp pt k).1.length
    · have hget : (processAllSections oracle (.cons c rest) pp pt k).1[i]
          = (processOneSection oracle c pp pt k).1[i] := by
        simp only [processAllSections]
        exact List.getElem_append_left hi
      rw [hget]
      exact processOneSection_content_at oracle c pp pt k i hi
    · have hlen : i < (processAllSections oracle (.cons c rest) pp pt k).1.length := h
      have hlen' : i - (processOneSection oracle c pp pt k).1.length
          < (processAllSections oracle rest pp pt ((processOneSection oracle c pp pt k).2)).1.length := by
        have := hlen
        simp only [processAllSections, List.length_append] at this
        omega
      have hget : (processAllSections oracle (.cons c rest) pp pt k).1[i]
          = (processAllSections oracle rest pp pt
              ((processOneSection oracle c pp pt k).2)).1[i - (processOneSection oracle c pp pt k).1.length] := by
        simp only [processAllSections]
        exact List.getElem_append_right (by omega)
      have ih := processAllSections_content_at oracle rest pp pt
        ((processOneSection oracle c pp pt k).2)
        (i - (processOneSection oracle c pp pt k).1.length) hlen'
      have harith : (processOneSection oracle c pp pt k).2
          + (i - (processOneSection oracle c pp pt k).1.length) = k + i := by
        rw [processOneSection_counter oracle c pp pt k, hlen1]
        omega
      rw [hget, ih, harith]
end

/-- C1 (amended): generation failures are handled without any retry:
`generateEnhancedSectionContent` catches every failure — rate-limit or
not — internally and immediately returns the placeholder
`# {title}\n\nContent for {title} in {section} section.`, so the
traversal makes exactly one generation call per outline node (the
counter advances by exactly the node count and the i-th page's content
comes from the i-th call), a page exists for every node, and the
request never aborts because one node's generation failed.  The
enclosing loop's rate-limit branch only waits before continuing; it
never re-invokes generation. -/
theorem c1_no_retry_placeholder_fallback :
    ∀ (oracle : Oracle) (root : ONode),
      ((processAllSections oracle root.children "" "" 0).2 = sizeF root.children)
      ∧ ((fetchAndEnhanceDocumentation oracle (.nested root)).length = sizeF root.children)
      ∧ (∀ (i : Nat) (h : i < (fetchAndEnhanceDocumentation oracle (.nested root)).length),
          ((fetchAndEnhanceDocumentation oracle (.nested root))[i]).content
            = generateEnhancedSectionContent
                ((fetchAndEnhanceDocumentation oracle (.nested root))[i]).sec
                ((fetchAndEnhanceDocumentation oracle (.nested root))[i]).subsection
                (oracle i))
      ∧ (∀ (sec subsec : String) (st : Nat),
          generateEnhancedSectionContent sec subsec (.err st) = placeholderContent sec subsec) := by
  intro oracle root
  refine ⟨?_, ?_, ?_, fun sec subsec st => rfl⟩
  · have := processAllSections_counter oracle root.children "" "" 0
    simpa using this
  · exact processAllSections_length oracle root.children "" "" 0
  · intro i h
    have := processAllSections_content_at oracle root.children "" "" 0 i h
    simpa using this

/-- Witness for C1 at a concrete input: with an oracle that always
throws a 429, the single page of a one-node outline draws its content
from call 0. -/
theorem c1_no_retry_placeholder_fallback_witness :
    ((fetchAndEnhanceDocumentation (fun _ => LLMResult.err 429)
        (.nested (.node "Root" (.cons (.node "Install" .nil) .nil)))).get
      ⟨0, by decide⟩).content
      = generateEnhancedSectionContent
          ((fetchAndEnhanceDocumentation (fun _ => LLMResult.err 429)
              (.nested (.node "Root" (.cons (.node "Install" .nil) .nil)))).get
            ⟨0, by decide⟩).sec
          ((fetchAndEnhanceDocumentation (fun _ => LLMResult.err 429)
              (.nested (.node "Root" (.cons (.node "Install" .nil) .nil)))).get
            ⟨0, by decide⟩).subsection
          ((fun _ => LLMResult.err 429) 0) :=
  (c1_no_retry_placeholder_fallback (fun _ => LLMResult.err 429)
    (.node "Root" (.cons (.node "Install" .nil) .nil))).2.2.1 0 (by decide)

/-- C1 fails as stated: with an oracle whose first call throws a 429
rate-limit error and whose second call would succeed with `RETRY OK`,
the node's page carries the placeholder — not the retry's content —
and exactly one call was consumed, so no retry ever happened. -/
theorem c1_counterexample :
    fetchAndEnhanceDocumentation (fun k => if k = 0 then LLMResult.err 429 else LLMResult.ok "RETRY OK")
        (.nested (.node "Root" (.cons (.node "Install" .nil) .nil)))
      = [{ title := "Install",
           content := "# Install\n\nContent for Install in Documentation section.",
           path := "install", ty := "docs", sec := "Documentation",
           subsection := "Install", fullPath := some "Install" }]
    ∧ (processAllSections (fun k => if k = 0 then LLMResult.err 429 else LLMResult.ok "RETRY OK")
        (.cons (.node "Install" .nil) .nil) "" "" 0).2 = 1
    ∧ "# Install\n\nContent for Install in Documentation section." ≠ "RETRY OK" := by
  decide

/-- C8: content generation visits the outline depth-first — the page
list of the nested shape lists every node's breadcrumb exactly once in
preorder, its length is the node count of the whole tree whatever the
depth, and the page of a node is emitted before all the pages of its
children, which are emitted before the node's later siblings'. -/
theorem c8_depth_first_traversal :
    ∀ (oracle : Oracle) (root : ONode),
      ((fetchAndEnhanceDocumentation oracle (.nested root)).map Page.fullPath
        = (crumbsF root.children "").map some)
      ∧ ((fetchAndEnhanceDocumentation oracle (.nested root)).length = sizeF root.children)
      ∧ (∀ (t : String) (cs rest : OForest) (pp pt : String) (k : Nat),
          (processAllSections oracle (.cons (.node t cs) rest) pp pt k).1
            = { title := t,
                content := generateEnhancedSectionContent (sectionKeyOf pt) t (oracle k),
                path := itemPathOf pp t, ty := "docs", sec := sectionKeyOf pt,
                subsection := t, fullPath := some (crumbOf pt t) }
              :: ((processAllSections oracle cs (itemPathOf pp t) (crumbOf pt t) (k + 1)).1
                 ++ (processAllSections oracle rest pp pt (k + sizeO (.node t cs))).1)) := by
  intro oracle root
  refine ⟨?_, ?_, ?_⟩
  · exact processAllSections_crumbs oracle root.children "" "" 0
  · exact processAllSections_length oracle root.children "" "" 0
  · intro t cs rest pp pt k
    have hc : (processAllSections oracle cs (itemPathOf pp t) (crumbOf pt t) (k + 1)).2
        = k + sizeO (.node t cs) := by
      rw [processAllSections_counter oracle cs (itemPathOf pp t) (crumbOf pt t) (k + 1)]
      simp only [sizeO]
      omega
    simp [processAllSections, processOneSection, hc]

/-- A dot-free word `p` followed by a dot is a prefix of `low` exactly
when the run of `low` before its first dot is `p` itself (and a dot
follows, i.e. `low` is longer than `p`).  Applied to reversed
filenames, this connects suffix matching of `.xyz` with
extension-after-the-last-dot extraction. -/
theorem isPrefixOf_ext_iff :
    ∀ p : List Char, '.' ∉ p →
      ∀ low : List Char,
        List.isPrefixOf (p ++ ['.']) low = true ↔
          (low.takeWhile (fun c => c != '.') = p ∧ p.length < low.length) := by
  intro p
  induction p with
  | nil =>
    intro _ low
    cases low with
    | nil => simp [List.isPrefixOf]
    | cons a as =>
      by_cases ha : a = '.'
      · subst ha
        simp [List.isPrefixOf, List.takeWhile]
      · have ha' : (a != '.') = true := by simp [ha]
        have hda : (('.' : Char) == a) = false := by
          rw [beq_eq_false_iff_ne]
          exact Ne.symm ha
        simp [List.isPrefixOf, List.takeWhile_cons, ha', hda]
  | cons q qs ih =>
    intro hp low
    have hq : q ≠ '.' := by
      intro h
      exact hp (by rw [h]; exact List.mem_cons_self '.' qs)
    have hqs : '.' ∉ qs := fun h => hp (List.mem_cons_of_mem q h)
    cases low with
    | nil => simp [List.isPrefixOf]
    | cons a as =>
      by_cases haq : q = a
      · subst haq
        have hq' : (q != '.') = true := by simp [hq]
        simp [List.isPrefixOf, List.takeWhile_cons, hq', ih hqs as, Nat.succ_lt_succ_iff]
      · have haq' : (q == a) = false := by simp [haq]
        simp only [List.cons_append, List.isPrefixOf, haq', Bool.false_and, Bool.false_eq_true,
          false_iff, not_and]
        intro hcontra
        by_cases ha : a = '.'
        · subst ha
          rw [List.takeWhile_cons] at hcontra
          simp at hcontra
        · have ha' : (a != '.') = true := by simp [ha]
          rw [List.takeWhile_cons, if_pos ha'] at hcontra
          exfalso
          injection hcontra with h1 h2
          exact haq h1.symm

/-- The suffix-matching extension strip of the source equals the
extension-after-the-last-dot formulation: a trailing `.md`/`.txt`/
`.rst` (case-insensitively) is removed, every other name is kept. -/
theorem stripExtCode_eq_removeDocExt (l : List Char) : stripExtCode l = removeDocExt l := by
  have hmdrev : (".md".data).reverse = ['d', 'm'] ++ ['.'] := by decide
  have htxtrev : (".txt".data).reverse = ['t', 'x', 't'] ++ ['.'] := by decide
  have hrstrev : (".rst".data).reverse = ['t', 's', 'r'] ++ ['.'] := by decide
  simp only [stripExtCode, removeDocExt, List.isSuffixOf, hmdrev, htxtrev, hrstrev]
  by_cases h1 : List.isPrefixOf (['d', 'm'] ++ ['.']) ((l.map lowerChar).reverse) = true
  · obtain ⟨ht, hl⟩ := (isPrefixOf_ext_iff ['d', 'm'] (by decide) _).mp h1
    simp only [h1, if_true, ht, hl]
    simp only [List.length_cons, List.length_nil, List.reverse_cons, List.reverse_nil,
      List.nil_append, List.cons_append]
    norm_num
    exact List.rdrop_eq_reverse_drop_reverse l 3
  · by_cases h2 : List.isPrefixOf (['t', 'x', 't'] ++ ['.']) ((l.map lowerChar).reverse) = true
    · obtain ⟨ht, hl⟩ := (isPrefixOf_ext_iff ['t', 'x', 't'] (by decide) _).mp h2
      simp only [h1, h2, if_true, Bool.false_eq_true, if_false, ht, hl]
      simp only [List.length_cons, List.length_nil, List.reverse_cons, List.reverse_nil,
        List.nil_append, List.cons_append]
      norm_num
      exact List.rdrop_eq_reverse_drop_reverse l 4
    · by_cases h3 : List.isPrefixOf (['t', 's', 'r'] ++ ['.']) ((l.map lowerChar).reverse) = true
      · obtain ⟨ht, hl⟩ := (isPrefixOf_ext_iff ['t', 's', 'r'] (by decide) _).mp h3
        simp only [h1, h2, h3, if_true, Bool.false_eq_true, if_false, ht, hl]
        simp only [List.length_cons, List.length_nil, List.reverse_cons, List.reverse_nil,
          List.nil_append, List.cons_append]
        norm_num
        exact List.rdrop_eq_reverse_drop_reverse l 4
      · simp only [h1, h2, h3, Bool.false_eq_true, if_false]
        rw [eq_comm, ite_eq_right_iff]
        intro hc
        exfalso
        rw [Bool.and_eq_true] at hc
        obtain ⟨hlen, hdisj⟩ := hc
        rw [decide_eq_true_eq] at hlen
        simp only [Bool.or_eq_true] at hdisj
        rcases hdisj with (hx | hx) | hx
        · rw [beq_iff_eq, List.reverse_eq_iff,
            show (['m', 'd'] : List Char).reverse = ['d', 'm'] from by decide] at hx
          rw [hx] at hlen
          exact h1 ((isPrefixOf_ext_iff ['d', 'm'] (by decide) _).mpr ⟨hx, hlen⟩)
        · rw [beq_iff_eq, List.reverse_eq_iff,
            show (['t', 'x', 't'] : List Char).reverse = ['t', 'x', 't'] from by decide] at hx
          rw [hx] at hlen
          exact h2 ((isPrefixOf_ext_iff ['t', 'x', 't'] (by decide) _).mpr ⟨hx, hlen⟩)
        · rw [beq_iff_eq, List.reverse_eq_iff,
            show (['r', 's', 't'] : List Char).reverse = ['t', 's', 'r'] from by decide] at hx
          rw [hx] at hlen
          exact h3 ((isPrefixOf_ext_iff ['t', 's', 'r'] (by decide) _).mpr ⟨hx, hlen⟩)

/-- C9 (amended): for every file path, the derived title equals the
filename with its extension removed only when that extension is `.md`,
`.txt` or `.rst` (case-insensitively; any other extension stays part
of the title), every `-` and `_` replaced by a space, and the first
character of each word-character run uppercased. -/
theorem c9_title_from_path :
    ∀ path : String, getTitleFromPath path = amendedTitleFromPath path := by
  intro path
  unfold getTitleFromPath amendedTitleFromPath
  rw [stripExtCode_eq_removeDocExt]

/-- C9 fails as stated: the code strips only `.md`/`.txt`/`.rst`, so
for `photo.png` the title keeps (and title-cases) the extension,
whereas the claim's filename-without-its-extension rule predicts
`Photo`. -/
theorem c9_counterexample :
    getTitleFromPath "photo.png" = "Photo.Png"
    ∧ claimTitleFromPath "photo.png" = "Photo"
    ∧ ("Photo.Png" : String) ≠ "Photo" := by
  decide

/-- `takeWhile` of a slash-free block followed by a slash is the block
itself. -/
theorem takeWhile_slash_append (o t : List Char) (h : ∀ c ∈ o, c ≠ '/') :
    (o ++ '/' :: t).takeWhile (fun c => c != '/') = o := by
  induction o with
  | nil => simp [List.takeWhile_cons]
  | cons c o' ih =>
    have hc : (c != '/') = true := by simp [h c (List.mem_cons_self c o')]
    simp [List.takeWhile_cons, hc, ih (fun x hx => h x (List.mem_cons_of_mem c hx))]

/-- Dropping the length of the `takeWhile` block is `dropWhile`. -/
theorem takeWhile_length_drop (p : Char → Bool) (A : List Char) :
    A.drop ((A.takeWhile p).length) = A.dropWhile p := by
  induction A with
  | nil => rfl
  | cons c t ih =>
    by_cases hc : p c = true <;>
      simp [List.takeWhile_cons, List.dropWhile_cons, hc, ih]

/-- The head of a non-empty `dropWhile` fails the predicate. -/
theorem dropWhile_head_not (p : Char → Bool) :
    ∀ (A : List Char) (x : Char) (t : List Char), A.dropWhile p = x :: t → p x = false := by
  intro A
  induction A with
  | nil => intro x t h; simp [List.dropWhile] at h
  | cons c cs ih =>
    intro x t h
    by_cases hc : p c = true
    · rw [List.dropWhile_cons, if_pos hc] at h
      exact ih x t h
    · rw [List.dropWhile_cons, if_neg hc] at h
      injection h with h1 h2
      rw [← h1]
      simpa using hc

/-- A successful `tryMatchAt` exhibits the match at the very start:
the literal, a non-empty slash-free owner, a slash, a non-empty
slash-free repo, and some remainder. -/
theorem tryMatchAt_sound (l o r : List Char) :
    tryMatchAt l = some (o, r) →
    ∃ post, l = githubLit ++ (o ++ ('/' :: (r ++ post)))
      ∧ o ≠ [] ∧ r ≠ [] ∧ (∀ c ∈ o, c ≠ '/') ∧ (∀ c ∈ r, c ≠ '/') := by
  intro h
  unfold tryMatchAt at h
  by_cases hp : githubLit.isPrefixOf l = true
  · rw [if_pos hp] at h
    have hA : githubLit ++ l.drop githubLit.length = l := by
      obtain ⟨t, ht⟩ := List.isPrefixOf_iff_prefix.mp hp
      rw [← ht, List.drop_left]
    by_cases he : ((l.drop githubLit.length).takeWhile (fun c => c != '/')).isEmpty = true
    · rw [if_pos he] at h
      exact absurd h (by simp)
    · rw [if_neg he] at h
      rw [takeWhile_length_drop] at h
      cases hd : (l.drop githubLit.length).dropWhile (fun c => c != '/') with
      | nil => rw [hd] at h; exact absurd h (by simp [repoPart])
      | cons x rest3 =>
        rw [hd] at h
        have hx : x = '/' := by
          have := dropWhile_head_not (fun c => c != '/') _ x rest3 hd
          simpa using this
        subst hx
        simp only [repoPart] at h
        by_cases he2 : (rest3.takeWhile (fun c => c != '/')).isEmpty = true
        · rw [if_pos he2] at h
          exact absurd h (by simp)
        · rw [if_neg he2] at h
          simp only [Option.map_some', Option.some.injEq, Prod.mk.injEq] at h
          obtain ⟨ho, hr⟩ := h
          refine ⟨rest3.dropWhile (fun c => c != '/'), ?_, ?_, ?_, ?_, ?_⟩
          · rw [← hA]
            congr 1
            symm
            calc o ++ ('/' :: (r ++ rest3.dropWhile (fun c => c != '/')))
                = o ++ ('/' :: rest3) := by
                  rw [← hr, List.takeWhile_append_dropWhile]
              _ = o ++ (l.drop githubLit.length).dropWhile (fun c => c != '/') := by
                  rw [hd]
              _ = l.drop githubLit.length := by
                  rw [← ho, List.takeWhile_append_dropWhile]
          · rw [← ho]
            simpa using he
          · rw [← hr]
            simpa using he2
          · intro c hc
            rw [← ho] at hc
            have := List.mem_takeWhile_imp hc
            simpa using this
          · intro c hc
            rw [← hr] at hc
            have := List.mem_takeWhile_imp hc
            simpa using this
  · rw [if_neg hp] at h
    exact absurd h (by simp)

/-- `tryMatchAt` succeeds on any text that starts with the pattern. -/
theorem tryMatchAt_isSome (o r post : List Char) (ho : o ≠ []) (hr : r ≠ [])
    (hos : ∀ c ∈ o, c ≠ '/') (hrs : ∀ c ∈ r, c ≠ '/') :
    (tryMatchAt (githubLit ++ (o ++ ('/' :: (r ++ post))))).isSome = true := by
  unfold tryMatchAt
  have hp : githubLit.isPrefixOf (githubLit ++ (o ++ ('/' :: (r ++ post)))) = true := by
    rw [List.isPrefixOf_iff_prefix]
    exact ⟨o ++ ('/' :: (r ++ post)), rfl⟩
  rw [if_pos hp]
  rw [List.drop_left]
  rw [takeWhile_slash_append o (r ++ post) hos]
  rw [if_neg (by simp [List.isEmpty_iff, ho])]
  rw [List.drop_left]
  simp only [repoPart]
  cases r with
  | nil => exact absurd rfl hr
  | cons c r' =>
    have hc : (c != '/') = true := by simp [hrs c (List.mem_cons_self c r')]
    simp [List.cons_append, List.takeWhile_cons, hc]

/-- A successful `tryMatchAt` makes the scan succeed. -/
theorem scanMatch_isSome_of_try (l : List Char) (h : (tryMatchAt l).isSome = true) :
    (scanMatch l).isSome = true := by
  cases l with
  | nil => exact absurd h (by decide)
  | cons c t =>
    unfold scanMatch
    cases htry : tryMatchAt (c :: t) with
    | some res => simp
    | none => rw [htry] at h; simp at h

/-- Scan soundness: a successful scan exhibits an occurrence of the
pattern somewhere in the text, with exactly the returned owner and
repo segments. -/
theorem scanMatch_sound :
    ∀ (l o r : List Char), scanMatch l = some (o, r) →
      ∃ pre post, l = pre ++ (githubLit ++ (o ++ ('/' :: (r ++ post))))
        ∧ o ≠ [] ∧ r ≠ [] ∧ (∀ c ∈ o, c ≠ '/') ∧ (∀ c ∈ r, c ≠ '/') := by
  intro l
  induction l with
  | nil => intro o r h; simp [scanMatch] at h
  | cons c t ih =>
    intro o r h
    unfold scanMatch at h
    cases htry : tryMatchAt (c :: t) with
    | some res =>
      rw [htry] at h
      simp only [Option.some.injEq] at h
      subst h
      obtain ⟨post, hdec, ho, hr, hos, hrs⟩ := tryMatchAt_sound _ o r htry
      exact ⟨[], post, by simpa using hdec, ho, hr, hos, hrs⟩
    | none =>
      rw [htry] at h
      obtain ⟨pre, post, hdec, ho, hr, hos, hrs⟩ := ih o r h
      exact ⟨c :: pre, post, by simp [hdec], ho, hr, hos, hrs⟩

/-- Scan completeness: the scan succeeds on any text containing the
pattern anywhere. -/
theorem scanMatch_isSome_aux :
    ∀ (pre o r post : List Char), o ≠ [] → r ≠ [] →
      (∀ c ∈ o, c ≠ '/') → (∀ c ∈ r, c ≠ '/') →
      (scanMatch (pre ++ (githubLit ++ (o ++ ('/' :: (r ++ post)))))).isSome = true := by
  intro pre
  induction pre with
  | nil =>
    intro o r post ho hr hos hrs
    simp only [List.nil_append]
    exact scanMatch_isSome_of_try _ (tryMatchAt_isSome o r post ho hr hos hrs)
  | cons c pre' ih =>
    intro o r post ho hr hos hrs
    simp only [List.cons_append]
    unfold scanMatch
    cases htry : tryMatchAt
        (c :: (pre' ++ (githubLit ++ (o ++ ('/' :: (r ++ post)))))) with
    | some res => simp
    | none =>
      dsimp only
      exact ih o r post ho hr hos hrs

/-- C10: repository-URL validation is an unanchored substring match —
a string is accepted exactly when it contains `github.com/` followed
by two non-empty slash-free segments anywhere within it, the returned
owner/repo come from such an occurrence, strings that are not GitHub
URLs at all (such as `http://evil.example/github.com/a/b`) and URLs
with extra trailing path segments pass, and every accepted string
escapes the 400 branch of the POST handler. -/
theorem c10_unanchored_validation :
    (∀ s : String, (matchGithub s).isSome = true ↔ containsGithubRepoRef s)
    ∧ (∀ (s o r : String), matchGithub s = some (o, r) →
        ∃ pre post, s.data = pre ++ (githubLit ++ (o.data ++ ('/' :: (r.data ++ post))))
          ∧ o.data ≠ [] ∧ r.data ≠ [] ∧ (∀ c ∈ o.data, c ≠ '/') ∧ (∀ c ∈ r.data, c ≠ '/'))
    ∧ matchGithub "http://evil.example/github.com/a/b" = some ("a", "b")
    ∧ matchGithub "https://github.com/owner/repo/tree/main" = some ("owner", "repo")
    ∧ (∀ (s : String) (pl : String → String → Except String J),
        containsGithubRepoRef s → (handlePost (.ok (some s)) pl).1 ≠ 400) := by
  have hiff : ∀ s : String, (matchGithub s).isSome = true ↔ containsGithubRepoRef s := by
    intro s
    constructor
    · intro h
      rw [matchGithub, Option.isSome_map'] at h
      obtain ⟨⟨o, r⟩, hsc⟩ := Option.isSome_iff_exists.mp h
      obtain ⟨pre, post, hdec, ho, hr, hos, hrs⟩ := scanMatch_sound s.data o r hsc
      exact ⟨pre, o, r, post, hdec, ho, hr, hos, hrs⟩
    · rintro ⟨pre, o, r, post, hdec, ho, hr, hos, hrs⟩
      rw [matchGithub, Option.isSome_map', hdec]
      exact scanMatch_isSome_aux pre o r post ho hr hos hrs
  refine ⟨hiff, ?_, by decide, by decide, ?_⟩
  · intro s o r h
    rw [matchGithub] at h
    cases hsc : scanMatch s.data with
    | none => rw [hsc] at h; exact absurd h (by simp)
    | some p =>
      rw [hsc] at h
      simp only [Option.map_some', Option.some.injEq] at h
      obtain ⟨pre, post, hdec, ho, hr, hos, hrs⟩ :=
        scanMatch_sound s.data p.1 p.2 (by rw [hsc])
      injection h with h1 h2
      have hod : o.data = p.1 := by rw [← h1]
      have hrd : r.data = p.2 := by rw [← h2]
      exact ⟨pre, post, by rw [hod, hrd]; exact hdec,
        by rw [hod]; exact ho, by rw [hrd]; exact hr,
        by rw [hod]; exact hos, by rw [hrd]; exact hrs⟩
  · intro s pl hc
    have hne : s ≠ "" := by
      intro hs
      subst hs
      obtain ⟨pre, o, r, post, hdec, _, _, _, _⟩ := hc
      have hlen := congrArg List.length hdec
      have h11 : githubLit.length = 11 := by decide
      simp only [show ("" : String).data = [] from rfl, List.length_nil, List.length_append,
        List.length_cons, h11] at hlen
      omega
    obtain ⟨⟨o, r⟩, hm⟩ := Option.isSome_iff_exists.mp ((hiff s).mpr hc)
    simp only [handlePost, hne, if_false, hm]
    cases pl o r with
    | ok res => simp
    | error e => simp

/-- Witness for C10 at a concrete input: the non-GitHub URL
`http://evil.example/github.com/a/b` passes validation, so the handler
does not answer 400 for it. -/
theorem c10_unanchored_validation_witness :
    (handlePost (.ok (some "http://evil.example/github.com/a/b"))
      (fun _ _ => .ok J.null)).1 ≠ 400 :=
  c10_unanchored_validation.2.2.2.2 "http://evil.example/github.com/a/b"
    (fun _ _ => .ok J.null)
    ((c10_unanchored_validation.1 "http://evil.example/github.com/a/b").mp (by decide))

end GWiki
